import Mathlib

/-!
# Verification of the backtest engine core

Shallow embedding of the execution/accounting core of the `backtest-engine`
repository: `src/config.py` (`EngineConfig`), `src/engine.py`
(`BacktestEngine.run`, `Trade`, `BacktestResult`) and the profit-factor slice
of `src/metrics.py` (`calculate_metrics`).

Modelling conventions:
* Python floats are modelled as exact rationals (`ℚ`); the arithmetic of the
  engine is plain field arithmetic, so every formula carries over verbatim.
* A pandas DataFrame row becomes a `Bar`: the loop reads only the `open` and
  `close` columns and the four boolean signal columns, plus the index
  (timestamp), which we model as a natural number `t` (the engine only ever
  copies timestamps into trade records, so any strictly increasing labelling
  is faithful).
* The imperative loop of `BacktestEngine.run` becomes a fold of a `step`
  function over the list of bars; the per-iteration phases of the source
  (execute pending signal, record the equity-curve value, record the new
  pending signal) are the three functions `execPending`, `markEquity`,
  `recordSignal` composed in that order, exactly as in the source.
* Division is rational division (total, with `x / 0 = 0`); the source would
  raise `ZeroDivisionError` on a zero open price, and the theorems that need
  a fill price carry positivity hypotheses on the bar data.
* The local variable `direction` of the source loop is written but never read
  (each exit branch hard-codes its direction string), so it is not part of
  the state; the direction strings "long"/"short" become the inductive
  `TradeDir`.
-/

/-- One row of the market series as consumed by `BacktestEngine.run`:
timestamp `t`, OHLC prices, and the four boolean signal columns
(`long_entry`, `long_exit`, `short_entry`, `short_exit`). -/
structure Bar where
  t : ℕ
  op : ℚ
  hi : ℚ
  lo : ℚ
  cl : ℚ
  long_entry : Bool := false
  long_exit : Bool := false
  short_entry : Bool := false
  short_exit : Bool := false
  deriving DecidableEq, Repr

/-- `EngineConfig` from `src/config.py`, defaults included. -/
structure EngineConfig where
  initial_capital : ℚ := 100000
  commission_pct : ℚ := 1/10
  slippage_ticks : ℚ := 0
  position_size_pct : ℚ := 100
  pyramiding : ℤ := 0
  deriving DecidableEq, Repr

/-- Trade direction; the source uses the strings "long" and "short". -/
inductive TradeDir where
  | long
  | short
  deriving DecidableEq, Repr

/-- `Trade` record from `src/engine.py`. -/
structure Trade where
  direction : TradeDir
  entry_time : ℕ
  entry_price : ℚ
  exit_time : ℕ
  exit_price : ℚ
  qty : ℚ
  pnl : ℚ
  commission : ℚ
  deriving DecidableEq, Repr

/-- The pending-signal slot of the loop; the source stores one of the four
strings or `None`, we store `Option PendingSignal`. -/
inductive PendingSignal where
  | longEntry
  | longExit
  | shortEntry
  | shortExit
  deriving DecidableEq, Repr

/-- The mutable state of the `BacktestEngine.run` loop: realized equity, the
signed position quantity, entry price/time of the open position, the
pending-signal slot, the accumulated trade list and the accumulated
equity-curve values. -/
structure EngState where
  equity : ℚ
  position : ℚ
  entry_price : ℚ
  entry_time : ℕ
  pending : Option PendingSignal
  trades : List Trade
  curve : List ℚ
  deriving DecidableEq, Repr

/-- Initial loop state of `BacktestEngine.run` (lines 54-60 of
`src/engine.py`). -/
def initState (cfg : EngineConfig) : EngState :=
  { equity := cfg.initial_capital
    position := 0
    entry_price := 0
    entry_time := 0
    pending := none
    trades := []
    curve := [] }

/-- Python's `abs` on rationals, written with an explicit sign test so that
it evaluates by unfolding; `pyAbs_eq_abs` below identifies it with `|q|`. -/
def pyAbs (q : ℚ) : ℚ :=
  if q < 0 then -q else q

/-- Phase (a) of one loop iteration: execute the pending signal from the
previous bar at this bar's open (`src/engine.py` lines 84-139).  Each branch
is guarded exactly as in the source; in every `some` case the pending slot is
cleared. -/
def execPending (cfg : EngineConfig) (s : EngState) (fill : ℚ) (t : ℕ) : EngState :=
  match s.pending with
  | none => s
  | some PendingSignal.longEntry =>
      if s.position = 0 then
        let qty := (s.equity * cfg.position_size_pct / 100) / fill
        let commission := qty * fill * cfg.commission_pct / 100
        { s with
            equity := s.equity - commission
            position := qty
            entry_price := fill
            entry_time := t
            pending := none }
      else { s with pending := none }
  | some PendingSignal.shortEntry =>
      if s.position = 0 then
        let qty := (s.equity * cfg.position_size_pct / 100) / fill
        let commission := qty * fill * cfg.commission_pct / 100
        { s with
            equity := s.equity - commission
            position := -qty
            entry_price := fill
            entry_time := t
            pending := none }
      else { s with pending := none }
  | some PendingSignal.longExit =>
      if 0 < s.position then
        let qty := pyAbs s.position
        let commission := qty * fill * cfg.commission_pct / 100
        let pnl := qty * (fill - s.entry_price)
        { s with
            equity := s.equity + pnl - commission
            position := 0
            pending := none
            trades := s.trades ++ [{
              direction := TradeDir.long
              entry_time := s.entry_time
              entry_price := s.entry_price
              exit_time := t
              exit_price := fill
              qty := qty
              pnl := pnl
              commission := commission }] }
      else { s with pending := none }
  | some PendingSignal.shortExit =>
      if s.position < 0 then
        let qty := pyAbs s.position
        let commission := qty * fill * cfg.commission_pct / 100
        let pnl := qty * (s.entry_price - fill)
        { s with
            equity := s.equity + pnl - commission
            position := 0
            pending := none
            trades := s.trades ++ [{
              direction := TradeDir.short
              entry_time := s.entry_time
              entry_price := s.entry_price
              exit_time := t
              exit_price := fill
              qty := qty
              pnl := pnl
              commission := commission }] }
      else { s with pending := none }

/-- The equity-curve value recorded for a bar with close `c` in state `s`:
realized equity plus mark-to-market of the open position (`src/engine.py`
lines 141-149). -/
def mtm (s : EngState) (c : ℚ) : ℚ :=
  if 0 < s.position then s.equity + s.position * (c - s.entry_price)
  else if s.position < 0 then s.equity + (-s.position) * (s.entry_price - c)
  else s.equity

/-- Phase (b) of one loop iteration: append this bar's equity-curve value. -/
def markEquity (s : EngState) (c : ℚ) : EngState :=
  { s with curve := s.curve ++ [mtm s c] }

/-- Phase (c) of one loop iteration: record this bar's signal for next-bar
execution (`src/engine.py` lines 151-159); the guard order of the source
(exit for the current direction first, entries only when flat) is kept. -/
def recordSignal (s : EngState) (b : Bar) : EngState :=
  { s with pending :=
      if 0 < s.position ∧ b.long_exit then some PendingSignal.longExit
      else if s.position < 0 ∧ b.short_exit then some PendingSignal.shortExit
      else if s.position = 0 ∧ b.long_entry then some PendingSignal.longEntry
      else if s.position = 0 ∧ b.short_entry then some PendingSignal.shortEntry
      else none }

/-- One iteration of the `BacktestEngine.run` loop over bar `b`. -/
def step (cfg : EngineConfig) (s : EngState) (b : Bar) : EngState :=
  recordSignal (markEquity (execPending cfg s b.op b.t) b.cl) b

/-- The loop state after processing all bars. -/
def loopState (cfg : EngineConfig) (bars : List Bar) : EngState :=
  bars.foldl (step cfg) (initState cfg)

/-- `BacktestResult` from `src/engine.py` (the `config` field is carried
unchanged). -/
structure BacktestResult where
  trades : List Trade
  equity_curve : List ℚ
  final_equity : ℚ
  config : EngineConfig
  deriving DecidableEq, Repr

/-- The force-close block of `BacktestEngine.run` (lines 161-191): if a
position is still open after the final bar, close it at the final bar's
close, append the trade, update equity and overwrite the last equity-curve
value. -/
def forceClose (cfg : EngineConfig) (s : EngState) (lastBar : Bar) : EngState :=
  if s.position = 0 then s
  else
    let last_close := lastBar.cl
    let qty := pyAbs s.position
    let commission := qty * last_close * cfg.commission_pct / 100
    let pnl := if 0 < s.position then qty * (last_close - s.entry_price)
               else qty * (s.entry_price - last_close)
    let tr : Trade :=
      { direction := if 0 < s.position then TradeDir.long else TradeDir.short
        entry_time := s.entry_time
        entry_price := s.entry_price
        exit_time := lastBar.t
        exit_price := last_close
        qty := qty
        pnl := pnl
        commission := commission }
    { s with
        equity := s.equity + pnl - commission
        position := 0
        trades := s.trades ++ [tr]
        curve := s.curve.dropLast ++ [s.equity + pnl - commission] }

/-- `BacktestEngine.run` over a list of bars: fold the loop, then force-close
any open position at the last bar. -/
def run (cfg : EngineConfig) (bars : List Bar) : BacktestResult :=
  let s := loopState cfg bars
  let s2 := match bars.getLast? with
            | none => s
            | some lb => forceClose cfg s lb
  { trades := s2.trades
    equity_curve := s2.curve
    final_equity := s2.equity
    config := cfg }

/-- `BacktestEngine.__init__` (`src/engine.py` lines 37-38): the stored
configuration is the one passed, or the default when `None`; no validation of
any kind is performed. -/
def mkEngine (config : Option EngineConfig) : EngineConfig :=
  config.getD {}

/-- Net PnL of a trade as used by `calculate_metrics` (`src/metrics.py`
line 82): gross PnL minus the (recorded) commission. -/
def netPnl (t : Trade) : ℚ :=
  t.pnl - t.commission

/-- Gross profit of a trade list (`src/metrics.py` lines 83, 91): sum of the
positive net PnLs (the source's `if winning else 0.0` agrees with the empty
sum). -/
def grossProfit (trades : List Trade) : ℚ :=
  ((trades.map netPnl).filter (fun p => 0 < p)).sum

/-- Gross loss of a trade list (`src/metrics.py` lines 84, 92): absolute sum
of the non-positive net PnLs. -/
def grossLoss (trades : List Trade) : ℚ :=
  |((trades.map netPnl).filter (fun p => ¬ 0 < p)).sum|

/-- Value of the profit-factor metric: a finite rational or the float
infinity produced by `float("inf")`. -/
inductive PFValue where
  | val (q : ℚ)
  | inf
  deriving DecidableEq, Repr

/-- The profit-factor computation of `calculate_metrics` (`src/metrics.py`
lines 66, 76, 90-93): `0.0` on an empty trade list (the early zero-trade
return), otherwise `gross_profit / gross_loss` when the gross loss is
positive and `float("inf")` when it is zero. -/
def profitFactor (trades : List Trade) : PFValue :=
  if trades = [] then PFValue.val 0
  else if 0 < grossLoss trades then PFValue.val (grossProfit trades / grossLoss trades)
  else PFValue.inf

/-- States of the loop after each processed bar, the initial state included
(`runStates cfg s bars` has length `bars.length + 1` and starts with `s`);
used to speak about intermediate loop states. -/
def runStates (cfg : EngineConfig) : EngState → List Bar → List EngState
  | s, [] => [s]
  | s, b :: bs => s :: runStates cfg (step cfg s b) bs

/-- The same configuration with the commission switched off. -/
def noCommission (cfg : EngineConfig) : EngineConfig :=
  { cfg with commission_pct := 0 }

/-- Coupling relation between the loop state of a run with commission
(`sc`, under `cfg`) and the loop state of the identical run without
commission (`snc`, under `noCommission cfg`): the pending slots agree, the
trade counts agree, and the bookkeeping fields are related case-by-case
(flat / long / short).  In a position, the equities are determined by the
position quantity, the shared entry price and the configuration, because an
entry computes the quantity from the pre-commission equity. -/
def CommRel (cfg : EngineConfig) (sc snc : EngState) : Prop :=
  sc.pending = snc.pending ∧
  sc.trades.length = snc.trades.length ∧
  ((sc.position = 0 ∧ snc.position = 0 ∧ sc.equity ≤ snc.equity ∧
      (sc.trades ≠ [] → sc.equity < snc.equity)) ∨
   (0 < sc.position ∧ sc.position ≤ snc.position ∧
      sc.entry_price = snc.entry_price ∧ 0 < sc.entry_price ∧
      sc.equity = sc.position * sc.entry_price *
        (100 / cfg.position_size_pct - cfg.commission_pct / 100) ∧
      snc.equity = 100 * snc.position * snc.entry_price / cfg.position_size_pct) ∨
   (sc.position < 0 ∧ snc.position ≤ sc.position ∧
      sc.entry_price = snc.entry_price ∧ 0 < sc.entry_price ∧
      sc.equity = (-sc.position) * sc.entry_price *
        (100 / cfg.position_size_pct - cfg.commission_pct / 100) ∧
      snc.equity = 100 * (-snc.position) * snc.entry_price / cfg.position_size_pct))

/-- Helper to build a bar with equal open/high/low and a given close. -/
def mkBar (t : ℕ) (o c : ℚ) (le lx se sx : Bool) : Bar :=
  { t := t, op := o, hi := o, lo := o, cl := c,
    long_entry := le, long_exit := lx, short_entry := se, short_exit := sx }

/-- The 5-bar series of the specification's concrete next-bar-fill example:
opens 100,101,102,103,104, long-entry flagged at bar 0, long-exit at
bar 3. -/
def barsNext : List Bar :=
  [ mkBar 0 100 100 true false false false,
    mkBar 1 101 101 false false false false,
    mkBar 2 102 102 false false false false,
    mkBar 3 103 103 false true false false,
    mkBar 4 104 104 false false false false ]

/-- Commission-free configuration used for the next-bar-fill example. -/
def cfgNoComm : EngineConfig :=
  { initial_capital := 100000, commission_pct := 0, slippage_ticks := 0,
    position_size_pct := 100, pyramiding := 0 }

/-- Configuration with 1% commission per side, used to exhibit the
commission attribution of the trade record. -/
def cfgComm1 : EngineConfig :=
  { initial_capital := 10000, commission_pct := 1, slippage_ticks := 0,
    position_size_pct := 100, pyramiding := 0 }

/-- Two flat bars (all prices 100) with a long entry at bar 0 and no exit:
the forced close produces a single trade with net PnL exactly zero. -/
def barsFlat : List Bar :=
  [ mkBar 0 100 100 true false false false,
    mkBar 1 100 100 false false false false ]

/-- Commission-free configuration for the zero-net-PnL trade. -/
def cfgFlat : EngineConfig :=
  { initial_capital := 10000, commission_pct := 0, slippage_ticks := 0,
    position_size_pct := 100, pyramiding := 0 }

/-- A configuration that is invalid according to the specification:
non-positive initial capital, negative commission and negative position
size. -/
def badCfg : EngineConfig :=
  { initial_capital := -100, commission_pct := -1, slippage_ticks := 0,
    position_size_pct := -5, pyramiding := 0 }

/-- Two signal-free bars. -/
def barsPlain : List Bar :=
  [ mkBar 0 100 100 false false false false,
    mkBar 1 100 100 false false false false ]

/-- The position-sizing example series: long entry flagged at bar 0, filled
at bar 1 whose open is the parameter `P`, no exit signal. -/
def barsSized (P : ℚ) : List Bar :=
  [ mkBar 0 100 100 true false false false,
    mkBar 1 P P false false false false,
    mkBar 2 102 102 false false false false,
    mkBar 3 103 103 false false false false,
    mkBar 4 104 104 false false false false ]

/-- Configuration of the position-sizing example: initial capital 10000,
position size 50%, no commission. -/
def cfgHalf : EngineConfig :=
  { initial_capital := 10000, commission_pct := 0, slippage_ticks := 0,
    position_size_pct := 50, pyramiding := 0 }

/-- Leveraged configuration (position size 300% of equity, 10% commission
per side) driving the realized equity negative mid-run. -/
def cfgLev : EngineConfig :=
  { initial_capital := 100, commission_pct := 10, slippage_ticks := 0,
    position_size_pct := 300, pyramiding := 0 }

/-- Series for the leveraged run: a losing long round trip (entry 100, exit
66) that leaves equity negative, then a second long entry whose negative
equity produces a negative quantity, force-closed at a close of 1. -/
def barsLev : List Bar :=
  [ mkBar 0 100 100 true false false false,
    mkBar 1 100 100 false true false false,
    mkBar 2 66 66 true false false false,
    mkBar 3 100 1 false false false false ]

/-- A plain profitable long round trip under 1% commission. -/
def barsWin : List Bar :=
  [ mkBar 0 100 100 true false false false,
    mkBar 1 100 100 false true false false,
    mkBar 2 110 110 false false false false ]

/-- Configuration for the profitable round trip: full position size, 1%
commission. -/
def cfgWin : EngineConfig :=
  { initial_capital := 10000, commission_pct := 1, slippage_ticks := 0,
    position_size_pct := 100, pyramiding := 0 }

theorem execPending_of_none (cfg : EngineConfig) (s : EngState) (fill : ℚ) (t : ℕ)
    (h : s.pending = none) : execPending cfg s fill t = s := by
  unfold execPending
  rw [h]

theorem execPending_curve (cfg : EngineConfig) (s : EngState) (fill : ℚ) (t : ℕ) :
    (execPending cfg s fill t).curve = s.curve := by
  unfold execPending
  cases s.pending with
  | none => rfl
  | some p => cases p <;> dsimp only <;> split <;> rfl

theorem execPending_entry_time (cfg : EngineConfig) (s : EngState) (fill : ℚ) (t : ℕ)
    (h : s.pending ≠ some PendingSignal.longEntry ∧ s.pending ≠ some PendingSignal.shortEntry) :
    (execPending cfg s fill t).entry_time = s.entry_time := by
  unfold execPending
  rcases hp : s.pending with _ | p
  · rfl
  · cases p with
    | longEntry => exact absurd hp h.1
    | shortEntry => exact absurd hp h.2
    | longExit => dsimp only; split <;> rfl
    | shortExit => dsimp only; split <;> rfl

theorem step_equity (cfg : EngineConfig) (s : EngState) (b : Bar) :
    (step cfg s b).equity = (execPending cfg s b.op b.t).equity := rfl

theorem step_position (cfg : EngineConfig) (s : EngState) (b : Bar) :
    (step cfg s b).position = (execPending cfg s b.op b.t).position := rfl

theorem step_entry_price (cfg : EngineConfig) (s : EngState) (b : Bar) :
    (step cfg s b).entry_price = (execPending cfg s b.op b.t).entry_price := rfl

theorem step_entry_time (cfg : EngineConfig) (s : EngState) (b : Bar) :
    (step cfg s b).entry_time = (execPending cfg s b.op b.t).entry_time := rfl

theorem step_trades (cfg : EngineConfig) (s : EngState) (b : Bar) :
    (step cfg s b).trades = (execPending cfg s b.op b.t).trades := rfl

theorem mtm_congr (s1 s2 : EngState) (c : ℚ) (he : s1.equity = s2.equity)
    (hp : s1.position = s2.position) (hep : s1.entry_price = s2.entry_price) :
    mtm s1 c = mtm s2 c := by
  unfold mtm
  rw [he, hp, hep]

theorem step_curve (cfg : EngineConfig) (s : EngState) (b : Bar) :
    (step cfg s b).curve = s.curve ++ [mtm (step cfg s b) b.cl] := by
  show (execPending cfg s b.op b.t).curve ++ [mtm (execPending cfg s b.op b.t) b.cl]
      = s.curve ++ [mtm (step cfg s b) b.cl]
  rw [execPending_curve, mtm_congr (step cfg s b) (execPending cfg s b.op b.t) b.cl rfl rfl rfl]

theorem pyAbs_eq_abs (q : ℚ) : pyAbs q = |q| := by
  unfold pyAbs
  split
  · exact (abs_of_neg (by assumption)).symm
  · exact (abs_of_nonneg (not_lt.mp (by assumption))).symm

/-- C1. A signal flagged at bar i is never filled at bar i: as long as no
pending signal carries over from the previous bar, processing a bar changes
no accounting state (equity, position, trades, entry price) — this bar's own
signals only set the pending slot for the next bar, whose fill then uses the
next bar's open.  On the specification's concrete 5-bar series with opens
100..104, a long entry flagged at bar 0 and a long exit flagged at bar 3
produce exactly one trade, entered at bar 1 at price 101 (bar 1's open) and
exited at bar 4 at price 104 (bar 4's open). -/
theorem signal_fills_next_bar :
    (∀ (cfg : EngineConfig) (s : EngState) (b : Bar), s.pending = none →
      (step cfg s b).equity = s.equity ∧ (step cfg s b).position = s.position ∧
      (step cfg s b).trades = s.trades ∧
      (step cfg s b).entry_price = s.entry_price) ∧
    (run cfgNoComm barsNext).trades =
      [{ direction := TradeDir.long, entry_time := 1, entry_price := 101,
         exit_time := 4, exit_price := 104, qty := 100000/101,
         pnl := 300000/101, commission := 0 }] := by
  constructor
  · intro cfg s b h
    rw [step_equity, step_position, step_trades, step_entry_price,
      execPending_of_none cfg s b.op b.t h]
    exact ⟨rfl, rfl, rfl, rfl⟩
  · norm_num [run, loopState, step, execPending, markEquity, recordSignal, initState,
      forceClose, mtm, pyAbs, barsNext, cfgNoComm, mkBar]

theorem signal_fills_next_bar_witness :
    (step cfgNoComm (initState cfgNoComm) (mkBar 0 100 100 true false false false)).equity
      = (initState cfgNoComm).equity :=
  (signal_fills_next_bar.1 cfgNoComm (initState cfgNoComm)
    (mkBar 0 100 100 true false false false) rfl).1

/-- C2. On the concrete 5-bar example under 1% commission per side, the
engine deducts both commission legs from equity (the final equity equals
initial capital plus gross PnL minus the entry-leg commission 100 and the
exit-leg commission 10400/101), but the appended Trade record's `commission`
field holds only the exit-leg amount 10400/101, which differs from the
round-trip total 100 + 10400/101: the record under-reports the trade's
commission relative to its aggregate equity impact. -/
theorem trade_commission_single_leg :
    (run cfgComm1 barsNext).trades =
      [{ direction := TradeDir.long, entry_time := 1, entry_price := 101,
         exit_time := 4, exit_price := 104, qty := 10000/101,
         pnl := 30000/101, commission := 10400/101 }] ∧
    (run cfgComm1 barsNext).final_equity = 10000 + 30000/101 - (100 + 10400/101) ∧
    ((10400 : ℚ)/101 ≠ 100 + 10400/101) := by
  refine ⟨?_, ?_, by norm_num⟩ <;>
    norm_num [run, loopState, step, execPending, markEquity, recordSignal, initState,
      forceClose, mtm, pyAbs, barsNext, cfgComm1, mkBar]

/-- C3 counterexample. A run producing a single trade whose net PnL is
exactly zero has zero gross profit and zero gross loss with a nonempty trade
list, and `calculate_metrics` computes profit factor `float("inf")` there,
not 0 as claimed. -/
theorem profit_factor_both_zero_is_inf :
    (run cfgFlat barsFlat).trades ≠ [] ∧
    grossProfit (run cfgFlat barsFlat).trades = 0 ∧
    grossLoss (run cfgFlat barsFlat).trades = 0 ∧
    profitFactor (run cfgFlat barsFlat).trades = PFValue.inf ∧
    PFValue.inf ≠ PFValue.val 0 := by
  refine ⟨?_, ?_, ?_, ?_, by intro h; cases h⟩ <;>
    norm_num [run, loopState, step, execPending, markEquity, recordSignal, initState,
      forceClose, mtm, pyAbs, barsFlat, cfgFlat, mkBar, grossProfit, grossLoss, netPnl,
      profitFactor, List.filter]

/-- C3 amended. Profit factor as computed by `calculate_metrics`: 0 on zero
trades; with at least one trade it is gross profit / gross loss when the
gross loss is positive, and `float("inf")` whenever the gross loss is zero —
including the case where the gross profit is also zero. -/
theorem profit_factor_cases (trades : List Trade) :
    0 ≤ grossLoss trades ∧
    (trades = [] → profitFactor trades = PFValue.val 0) ∧
    (trades ≠ [] → grossLoss trades = 0 → profitFactor trades = PFValue.inf) ∧
    (trades ≠ [] → 0 < grossLoss trades →
      profitFactor trades = PFValue.val (grossProfit trades / grossLoss trades)) := by
  refine ⟨abs_nonneg _, ?_, ?_, ?_⟩
  · intro h
    simp [profitFactor, h]
  · intro h h0
    simp [profitFactor, h, h0]
  · intro h h0
    simp [profitFactor, h, h0]

theorem profit_factor_cases_witness :
    profitFactor (run cfgFlat barsFlat).trades = PFValue.inf :=
  (profit_factor_cases (run cfgFlat barsFlat).trades).2.2.1
    (by norm_num [run, loopState, step, execPending, markEquity, recordSignal, initState,
      forceClose, mtm, pyAbs, barsFlat, cfgFlat, mkBar])
    (by norm_num [run, loopState, step, execPending, markEquity, recordSignal, initState,
      forceClose, mtm, pyAbs, barsFlat, cfgFlat, mkBar, grossLoss, netPnl, List.filter])

/-- C4. Constructing the engine performs no validation whatsoever: a
configuration with negative initial capital, negative commission and
negative position size is stored unchanged (`__init__` only substitutes the
default for `None`), and `run` then proceeds with it — the invalid initial
capital flows straight into the result instead of failing at construction
time. -/
theorem engine_accepts_invalid_config :
    mkEngine (some badCfg) = badCfg ∧
    mkEngine none = { initial_capital := 100000, commission_pct := 1/10,
                      slippage_ticks := 0, position_size_pct := 100, pyramiding := 0 } ∧
    badCfg.initial_capital ≤ 0 ∧ badCfg.commission_pct < 0 ∧ badCfg.position_size_pct < 0 ∧
    (run (mkEngine (some badCfg)) barsPlain).final_equity = -100 ∧
    (run (mkEngine (some badCfg)) barsPlain).equity_curve = [-100, -100] := by
  refine ⟨rfl, rfl, by norm_num [badCfg], by norm_num [badCfg], by norm_num [badCfg], ?_, ?_⟩ <;>
    norm_num [run, loopState, step, execPending, markEquity, recordSignal, initState,
      forceClose, mtm, pyAbs, barsPlain, badCfg, mkEngine, mkBar]

theorem recordSignal_of_position_ne (s : EngState) (b b' : Bar) (hpos : s.position ≠ 0)
    (hlx : b'.long_exit = b.long_exit) (hsx : b'.short_exit = b.short_exit) :
    recordSignal s b' = recordSignal s b := by
  unfold recordSignal
  congr 1
  rw [hlx, hsx]
  simp only [hpos, false_and, if_false]

theorem recordSignal_of_flat (s : EngState) (b b' : Bar) (hpos : s.position = 0)
    (hle : b'.long_entry = b.long_entry) (hse : b'.short_entry = b.short_entry) :
    recordSignal s b' = recordSignal s b := by
  unfold recordSignal
  congr 1
  rw [hle, hse, hpos]
  simp

/-- C5. If a position is still open after the final bar was processed, the
run closes it at the final bar's close price: exactly one further trade is
appended, whose exit time is the final bar's timestamp and whose exit price
is the final bar's close, with commission computed on the exit notional
exactly as for a normal exit; the final equity is the loop equity plus the
closing PnL minus that commission, and the last equity-curve entry is
overwritten with the final equity. -/
theorem run_forced_close (cfg : EngineConfig) (bars : List Bar) (lb : Bar)
    (hlb : bars.getLast? = some lb)
    (hpos : (loopState cfg bars).position ≠ 0) :
    (run cfg bars).trades = (loopState cfg bars).trades ++
      [{ direction := if 0 < (loopState cfg bars).position then TradeDir.long else TradeDir.short
         entry_time := (loopState cfg bars).entry_time
         entry_price := (loopState cfg bars).entry_price
         exit_time := lb.t
         exit_price := lb.cl
         qty := pyAbs (loopState cfg bars).position
         pnl := if 0 < (loopState cfg bars).position
                then pyAbs (loopState cfg bars).position * (lb.cl - (loopState cfg bars).entry_price)
                else pyAbs (loopState cfg bars).position * ((loopState cfg bars).entry_price - lb.cl)
         commission := pyAbs (loopState cfg bars).position * lb.cl * cfg.commission_pct / 100 }] ∧
    (run cfg bars).final_equity = (loopState cfg bars).equity +
      (if 0 < (loopState cfg bars).position
       then pyAbs (loopState cfg bars).position * (lb.cl - (loopState cfg bars).entry_price)
       else pyAbs (loopState cfg bars).position * ((loopState cfg bars).entry_price - lb.cl)) -
      pyAbs (loopState cfg bars).position * lb.cl * cfg.commission_pct / 100 ∧
    (run cfg bars).equity_curve.getLast? = some ((run cfg bars).final_equity) ∧
    (run cfg bars).trades.length = (loopState cfg bars).trades.length + 1 := by
  have hrun : run cfg bars =
      { trades := (forceClose cfg (loopState cfg bars) lb).trades
        equity_curve := (forceClose cfg (loopState cfg bars) lb).curve
        final_equity := (forceClose cfg (loopState cfg bars) lb).equity
        config := cfg } := by
    unfold run
    rw [hlb]
  rw [hrun]
  unfold forceClose
  rw [if_neg hpos]
  refine ⟨rfl, rfl, List.getLast?_concat _, by simp⟩

theorem run_forced_close_witness :
    (run cfgHalf (barsSized 101)).trades.length
      = (loopState cfgHalf (barsSized 101)).trades.length + 1 :=
  (run_forced_close cfgHalf (barsSized 101) (mkBar 4 104 104 false false false false)
    rfl
    (by norm_num [loopState, step, execPending, markEquity, recordSignal, initState,
      mtm, pyAbs, barsSized, cfgHalf, mkBar])).2.2.2

/-- C7. At most one position can ever be open (the ledger holds a single
signed quantity), and the signal handling enforces no pyramiding: when the
position after this bar's fill is open, the bar's entry flags are completely
ignored (the run is unchanged under any values of the two entry flags); when
it is flat, the bar's exit flags are completely ignored; and a bar appends a
trade exactly when a matching pending exit executes — entry fills and
ignored signals never append a trade, so the trade count equals the number
of completed exit events. -/
theorem no_pyramiding_signals :
    (∀ (cfg : EngineConfig) (s : EngState) (b : Bar) (e1 e2 : Bool),
      (execPending cfg s b.op b.t).position ≠ 0 →
      step cfg s { b with long_entry := e1, short_entry := e2 } = step cfg s b) ∧
    (∀ (cfg : EngineConfig) (s : EngState) (b : Bar) (x1 x2 : Bool),
      (execPending cfg s b.op b.t).position = 0 →
      step cfg s { b with long_exit := x1, short_exit := x2 } = step cfg s b) ∧
    (∀ (cfg : EngineConfig) (s : EngState) (b : Bar),
      (step cfg s b).trades.length = s.trades.length +
        (if (s.pending = some PendingSignal.longExit ∧ 0 < s.position) ∨
            (s.pending = some PendingSignal.shortExit ∧ s.position < 0) then 1 else 0)) := by
  refine ⟨?_, ?_, ?_⟩
  · intro cfg s b e1 e2 h
    show recordSignal (markEquity (execPending cfg s b.op b.t) b.cl)
        { b with long_entry := e1, short_entry := e2 }
      = recordSignal (markEquity (execPending cfg s b.op b.t) b.cl) b
    exact recordSignal_of_position_ne _ _ _ h rfl rfl
  · intro cfg s b x1 x2 h
    show recordSignal (markEquity (execPending cfg s b.op b.t) b.cl)
        { b with long_exit := x1, short_exit := x2 }
      = recordSignal (markEquity (execPending cfg s b.op b.t) b.cl) b
    exact recordSignal_of_flat _ _ _ h rfl rfl
  · intro cfg s b
    rw [step_trades]
    unfold execPending
    rcases hp : s.pending with _ | p
    · simp
    · cases p with
      | longEntry => dsimp only; split <;> simp
      | shortEntry => dsimp only; split <;> simp
      | longExit =>
          dsimp only
          rcases lt_or_le 0 s.position with h1 | h1
          · rw [if_pos h1]
            simp [h1]
          · rw [if_neg (not_lt.mpr h1)]
            simp [not_lt.mpr h1]
      | shortExit =>
          dsimp only
          rcases lt_or_le s.position 0 with h1 | h1
          · rw [if_pos h1]
            simp [h1, asymm h1]
          · rw [if_neg (not_lt.mpr h1)]
            simp [not_lt.mpr h1]

/-- C8. An entry fill sizes the position from the equity before the entry
commission is deducted: the new position quantity is
(equity × position_size_pct / 100) / fill price, and only afterwards is the
commission on that quantity subtracted from equity.  Concretely, with
initial capital 10000 and position_size_pct = 50, an entry filled at any
positive price P yields a single (force-closed) trade of quantity
10000 × (50/100) / P exactly. -/
theorem position_sizing :
    (∀ (cfg : EngineConfig) (s : EngState) (fill : ℚ) (t : ℕ),
      s.pending = some PendingSignal.longEntry → s.position = 0 →
      (execPending cfg s fill t).position = s.equity * cfg.position_size_pct / 100 / fill ∧
      (execPending cfg s fill t).equity =
        s.equity - s.equity * cfg.position_size_pct / 100 / fill * fill * cfg.commission_pct / 100) ∧
    (∀ P : ℚ, 0 < P →
      (run cfgHalf (barsSized P)).trades.map Trade.qty = [10000 * (50/100) / P]) := by
  constructor
  · intro cfg s fill t hpend hflat
    unfold execPending
    rw [hpend]
    dsimp only
    rw [if_pos hflat]
    exact ⟨rfl, rfl⟩
  · intro P hP
    have hq : (0:ℚ) < 5000 / P := by positivity
    norm_num [run, loopState, step, execPending, markEquity, recordSignal, initState,
      forceClose, mtm, pyAbs, barsSized, cfgHalf, mkBar, hq, hq.ne', not_lt.mpr hq.le]

theorem position_sizing_witness :
    (execPending cfgHalf
        { equity := 10000, position := 0, entry_price := 0, entry_time := 0,
          pending := some PendingSignal.longEntry, trades := [], curve := [] }
        101 1).position = 10000 * cfgHalf.position_size_pct / 100 / 101 ∧
    (run cfgHalf (barsSized 101)).trades.map Trade.qty = [10000 * (50/100) / 101] :=
  ⟨(position_sizing.1 cfgHalf
      { equity := 10000, position := 0, entry_price := 0, entry_time := 0,
        pending := some PendingSignal.longEntry, trades := [], curve := [] }
      101 1 rfl rfl).1,
   position_sizing.2 101 (by norm_num)⟩

theorem no_pyramiding_signals_witness :
    step cfgNoComm
        { equity := 100, position := 1, entry_price := 100, entry_time := 0,
          pending := none, trades := [], curve := [] }
        { mkBar 2 100 100 false false false false with long_entry := true, short_entry := true }
      = step cfgNoComm
          { equity := 100, position := 1, entry_price := 100, entry_time := 0,
            pending := none, trades := [], curve := [] }
          (mkBar 2 100 100 false false false false) ∧
    step cfgNoComm (initState cfgNoComm)
        { mkBar 0 100 100 false false false false with long_exit := true, short_exit := true }
      = step cfgNoComm (initState cfgNoComm) (mkBar 0 100 100 false false false false) :=
  ⟨no_pyramiding_signals.1 cfgNoComm _ _ true true (by norm_num [execPending]),
   no_pyramiding_signals.2.1 cfgNoComm _ _ true true (by norm_num [execPending, initState])⟩

theorem zipWith_runStates (cfg : EngineConfig) (f : EngState → ℚ → ℚ) (x : EngState)
    (bs : List Bar) (c : ℚ) (cs : List ℚ) :
    List.zipWith f (runStates cfg x bs) (c :: cs)
      = f x c :: List.zipWith f (runStates cfg x bs).tail cs := by
  cases bs <;> rfl

theorem runStates_length (cfg : EngineConfig) :
    ∀ (bs : List Bar) (s : EngState), (runStates cfg s bs).length = bs.length + 1 := by
  intro bs
  induction bs with
  | nil => intro s; rfl
  | cons b bs2 ih =>
      intro s
      show (s :: runStates cfg (step cfg s b) bs2).length = bs2.length + 1 + 1
      rw [List.length_cons, ih]

theorem loop_curve (cfg : EngineConfig) :
    ∀ (bars : List Bar) (s : EngState),
    (List.foldl (step cfg) s bars).curve
      = s.curve ++ List.zipWith mtm (runStates cfg s bars).tail (bars.map Bar.cl) := by
  intro bars
  induction bars with
  | nil => intro s; simp [runStates]
  | cons b bs ih =>
      intro s
      show (List.foldl (step cfg) (step cfg s b) bs).curve
        = s.curve ++ List.zipWith mtm (runStates cfg (step cfg s b) bs) (b.cl :: bs.map Bar.cl)
      rw [ih (step cfg s b), step_curve, zipWith_runStates, List.append_assoc,
        List.singleton_append]

theorem loop_curve_getLast (cfg : EngineConfig) :
    ∀ (bars : List Bar) (s : EngState) (lb : Bar), bars.getLast? = some lb →
    (List.foldl (step cfg) s bars).curve.getLast?
      = some (mtm (List.foldl (step cfg) s bars) lb.cl) := by
  intro bars
  induction bars with
  | nil => intro s lb h; cases h
  | cons b bs ih =>
      intro s lb h
      cases bs with
      | nil =>
          obtain rfl : b = lb := by simpa using h
          show (step cfg s b).curve.getLast? = some (mtm (step cfg s b) b.cl)
          rw [step_curve]
          exact List.getLast?_concat _
      | cons b2 bs2 =>
          have h2 : (b2 :: bs2).getLast? = some lb := by
            rw [← List.getLast?_cons_cons]
            exact h
          exact ih (step cfg s b) lb h2

/-- C6. The equity curve has exactly one value per input bar (so no entry is
ever undefined), and it is exactly the bar-by-bar mark-to-market sequence:
the value at bar i is the realized equity of the state reached after any
fill applied at bar i plus the unrealized PnL of the then-open position
valued at bar i's close (`mtm`, zero when flat) — except that when a
position is still open after the last bar, the forced close (a fill applied
at the last bar) overwrites the last value with the final realized equity,
whose unrealized component is zero because the position is then closed. -/
theorem equity_curve_per_bar (cfg : EngineConfig) (bars : List Bar) :
    (run cfg bars).equity_curve.length = bars.length ∧
    (run cfg bars).equity_curve =
      (if (loopState cfg bars).position = 0
       then List.zipWith mtm (runStates cfg (initState cfg) bars).tail (bars.map Bar.cl)
       else (List.zipWith mtm (runStates cfg (initState cfg) bars).tail
              (bars.map Bar.cl)).dropLast ++ [(run cfg bars).final_equity]) := by
  have hloop : (loopState cfg bars).curve
      = List.zipWith mtm (runStates cfg (initState cfg) bars).tail (bars.map Bar.cl) := by
    rw [loopState, loop_curve]
    rfl
  have hziplen : (List.zipWith mtm (runStates cfg (initState cfg) bars).tail
      (bars.map Bar.cl)).length = bars.length := by
    rw [List.length_zipWith, List.length_tail, runStates_length, List.length_map]
    simp
  rcases hlb : bars.getLast? with _ | lb
  · have hnil : bars = [] := List.getLast?_eq_none_iff.mp hlb
    subst hnil
    have h0 : (loopState cfg ([] : List Bar)).position = 0 := rfl
    have hrun : run cfg [] =
        { trades := (loopState cfg []).trades, equity_curve := (loopState cfg []).curve,
          final_equity := (loopState cfg []).equity, config := cfg } := rfl
    rw [hrun]
    dsimp only
    rw [if_pos h0, hloop]
    exact ⟨by rw [hziplen], rfl⟩
  · by_cases h0 : (loopState cfg bars).position = 0
    · have hfc : forceClose cfg (loopState cfg bars) lb = loopState cfg bars := by
        unfold forceClose
        rw [if_pos h0]
      have hrun : run cfg bars =
          { trades := (forceClose cfg (loopState cfg bars) lb).trades
            equity_curve := (forceClose cfg (loopState cfg bars) lb).curve
            final_equity := (forceClose cfg (loopState cfg bars) lb).equity
            config := cfg } := by
        unfold run
        rw [hlb]
      rw [hrun, hfc]
      dsimp only
      rw [if_pos h0, hloop]
      exact ⟨by rw [hziplen], rfl⟩
    · have hne : bars ≠ [] := by
        intro hnil
        subst hnil
        exact h0 rfl
      have hrun : run cfg bars =
          { trades := (forceClose cfg (loopState cfg bars) lb).trades
            equity_curve := (forceClose cfg (loopState cfg bars) lb).curve
            final_equity := (forceClose cfg (loopState cfg bars) lb).equity
            config := cfg } := by
        unfold run
        rw [hlb]
      rw [hrun]
      unfold forceClose
      rw [if_neg h0]
      dsimp only
      rw [if_neg h0, hloop]
      refine ⟨?_, rfl⟩
      rw [List.length_append, List.length_dropLast, hziplen]
      have hpos : 0 < bars.length := List.length_pos.mpr hne
      simp
      omega

/-- C10. For every non-empty input series, the last equity-curve value
equals the returned final equity: when the run ends flat the last
mark-to-market value collapses to the realized equity, and when a position
was force-closed the last value was overwritten with the post-close
equity. -/
theorem last_curve_is_final_equity (cfg : EngineConfig) (bars : List Bar)
    (h : bars ≠ []) :
    (run cfg bars).equity_curve.getLast? = some ((run cfg bars).final_equity) := by
  obtain ⟨lb, hlb⟩ : ∃ lb, bars.getLast? = some lb := by
    cases hb : bars.getLast? with
    | none => exact absurd (List.getLast?_eq_none_iff.mp hb) h
    | some lb => exact ⟨lb, rfl⟩
  by_cases h0 : (loopState cfg bars).position = 0
  · have hfc : forceClose cfg (loopState cfg bars) lb = loopState cfg bars := by
      unfold forceClose
      rw [if_pos h0]
    have hrun : run cfg bars =
        { trades := (forceClose cfg (loopState cfg bars) lb).trades
          equity_curve := (forceClose cfg (loopState cfg bars) lb).curve
          final_equity := (forceClose cfg (loopState cfg bars) lb).equity
          config := cfg } := by
      unfold run
      rw [hlb]
    rw [hrun, hfc]
    dsimp only
    rw [loopState, loop_curve_getLast cfg bars (initState cfg) lb hlb]
    congr 1
    unfold mtm
    rw [← loopState, h0]
    simp
  · have hrun : run cfg bars =
        { trades := (forceClose cfg (loopState cfg bars) lb).trades
          equity_curve := (forceClose cfg (loopState cfg bars) lb).curve
          final_equity := (forceClose cfg (loopState cfg bars) lb).equity
          config := cfg } := by
      unfold run
      rw [hlb]
    rw [hrun]
    unfold forceClose
    rw [if_neg h0]
    exact List.getLast?_concat _

theorem last_curve_is_final_equity_witness :
    (run cfgNoComm barsNext).equity_curve.getLast?
      = some ((run cfgNoComm barsNext).final_equity) :=
  last_curve_is_final_equity cfgNoComm barsNext (by unfold barsNext; exact List.cons_ne_nil _ _)

/-- C9 counterexample. With position size 300% of equity and 10% commission
per side, a losing long round trip (entry 100, exit 66) drives the realized
equity negative; the subsequent long entry then has negative quantity, and
its forced close at a price of 1 profits in proportion to how negative the
equity is.  The commission run ends at 587153/5000 = 117.4306 while the
commission-free run on the same series ends at 197/50 = 3.94, so with at
least one trade occurring final equity under positive commission is NOT
always below final equity without commission. -/
theorem commission_not_always_worse :
    0 < cfgLev.commission_pct ∧
    (run cfgLev barsLev).trades.length = 2 ∧
    (run (noCommission cfgLev) barsLev).trades.length = 2 ∧
    (run cfgLev barsLev).final_equity = 587153/5000 ∧
    (run (noCommission cfgLev) barsLev).final_equity = 197/50 ∧
    ¬ ((run cfgLev barsLev).final_equity
        < (run (noCommission cfgLev) barsLev).final_equity) := by
  refine ⟨by norm_num [cfgLev], ?_, ?_, ?_, ?_, ?_⟩ <;>
    norm_num [run, loopState, step, execPending, markEquity, recordSignal, initState,
      forceClose, mtm, pyAbs, noCommission, barsLev, cfgLev, mkBar]

theorem pyAbs_of_pos {q : ℚ} (h : 0 < q) : pyAbs q = q := by
  unfold pyAbs
  rw [if_neg (asymm h)]

theorem pyAbs_of_neg {q : ℚ} (h : q < 0) : pyAbs q = -q := by
  unfold pyAbs
  rw [if_pos h]

theorem exit_step_lt (s c P X qc qnc D : ℚ) (hs : 0 < s) (hc : 0 < c) (hP : 0 < P)
    (hX : 0 ≤ X) (hqc : 0 < qc) (hq : qc ≤ qnc)
    (hpos : 0 < qc * P * (100/s - c/100) + qc * D - qc * X * c / 100) :
    qc * P * (100/s - c/100) + qc * D - qc * X * c / 100
      < 100 * qnc * P / s + qnc * D := by
  have hd : 0 < c * (P + X) / 100 := by positivity
  have hL : qc * P * (100/s - c/100) + qc * D - qc * X * c / 100
      = qc * ((100 * P / s + D) - c * (P + X) / 100) := by
    field_simp
    ring
  have hR : 100 * qnc * P / s + qnc * D = qnc * (100 * P / s + D) := by ring
  rw [hL] at hpos ⊢
  rw [hR]
  have hZ : 0 < (100 * P / s + D) - c * (P + X) / 100 := by
    by_contra hcon
    push_neg at hcon
    nlinarith
  calc qc * ((100 * P / s + D) - c * (P + X) / 100)
      ≤ qnc * ((100 * P / s + D) - c * (P + X) / 100) :=
        mul_le_mul_of_nonneg_right hq hZ.le
    _ < qnc * (100 * P / s + D) := by
        have hqnc : 0 < qnc := lt_of_lt_of_le hqc hq
        nlinarith

theorem noCommission_size (cfg : EngineConfig) :
    (noCommission cfg).position_size_pct = cfg.position_size_pct := rfl

theorem noCommission_comm (cfg : EngineConfig) :
    (noCommission cfg).commission_pct = 0 := rfl

theorem commRel_mark_record (cfg : EngineConfig) (b : Bar) (c : ℚ) (x y : EngState)
    (h : CommRel cfg x y) :
    CommRel cfg (recordSignal (markEquity x c) b) (recordSignal (markEquity y c) b) := by
  obtain ⟨hpend, hlen, hcase⟩ := h
  refine ⟨?_, hlen, hcase⟩
  show (if 0 < x.position ∧ b.long_exit then some PendingSignal.longExit
        else if x.position < 0 ∧ b.short_exit then some PendingSignal.shortExit
        else if x.position = 0 ∧ b.long_entry then some PendingSignal.longEntry
        else if x.position = 0 ∧ b.short_entry then some PendingSignal.shortEntry
        else none)
      = (if 0 < y.position ∧ b.long_exit then some PendingSignal.longExit
        else if y.position < 0 ∧ b.short_exit then some PendingSignal.shortExit
        else if y.position = 0 ∧ b.long_entry then some PendingSignal.longEntry
        else if y.position = 0 ∧ b.short_entry then some PendingSignal.shortEntry
        else none)
  rcases hcase with ⟨h1, h2, _⟩ | ⟨h1, h2, _⟩ | ⟨h1, h2, _⟩
  · rw [h1, h2]
  · have hy : 0 < y.position := lt_of_lt_of_le h1 h2
    simp only [h1, hy, asymm h1, asymm hy, true_and, false_and, if_false,
      (ne_of_gt h1), (ne_of_gt hy)]
  · have hy : y.position < 0 := lt_of_le_of_lt h2 h1
    simp only [h1, hy, asymm h1, asymm hy, true_and, false_and, if_false,
      (ne_of_lt h1), (ne_of_lt hy)]

theorem exec_commRel (cfg : EngineConfig) (fill : ℚ) (t : ℕ) (sc snc : EngState)
    (hs : 0 < cfg.position_size_pct) (hc : 0 < cfg.commission_pct)
    (hfill : 0 < fill)
    (hpre : 0 < sc.equity)
    (hpost : 0 < (execPending cfg sc fill t).equity)
    (hrel : CommRel cfg sc snc) :
    CommRel cfg (execPending cfg sc fill t) (execPending (noCommission cfg) snc fill t) := by
  obtain ⟨hpend, hlen, hcase⟩ := hrel
  have hs' : cfg.position_size_pct ≠ 0 := hs.ne'
  have hf' : fill ≠ 0 := hfill.ne'
  rcases hp : sc.pending with _ | p
  · have hp2 : snc.pending = none := by rw [← hpend, hp]
    rw [execPending_of_none _ _ _ _ hp, execPending_of_none _ _ _ _ hp2]
    exact ⟨hpend, hlen, hcase⟩
  · have hp2 : snc.pending = some p := by rw [← hpend, hp]
    cases p with
    | longEntry =>
        rcases hcase with ⟨h1, h2, hle, hst⟩ | ⟨h1, h2, hep, hPpos, hEc, hEnc⟩ |
          ⟨h1, h2, hep, hPpos, hEc, hEnc⟩
        · have hq : 0 < sc.equity * cfg.position_size_pct / 100 / fill := by positivity
          have hq2 : sc.equity * cfg.position_size_pct / 100 / fill
              ≤ snc.equity * cfg.position_size_pct / 100 / fill := by gcongr
          unfold execPending
          rw [hp, hp2]
          dsimp only
          rw [if_pos h1, if_pos h2, noCommission_size, noCommission_comm]
          refine ⟨rfl, hlen, Or.inr (Or.inl ⟨hq, hq2, rfl, hfill, ?_, ?_⟩)⟩
          · show sc.equity - sc.equity * cfg.position_size_pct / 100 / fill * fill *
                cfg.commission_pct / 100
              = sc.equity * cfg.position_size_pct / 100 / fill * fill *
                (100 / cfg.position_size_pct - cfg.commission_pct / 100)
            field_simp
            ring
          · show snc.equity - snc.equity * cfg.position_size_pct / 100 / fill * fill * 0 / 100
              = 100 * (snc.equity * cfg.position_size_pct / 100 / fill) * fill /
                cfg.position_size_pct
            field_simp
            ring
        · have hy : 0 < snc.position := lt_of_lt_of_le h1 h2
          unfold execPending
          rw [hp, hp2]
          dsimp only
          rw [if_neg (ne_of_gt h1), if_neg (ne_of_gt hy)]
          exact ⟨rfl, hlen, Or.inr (Or.inl ⟨h1, h2, hep, hPpos, hEc, hEnc⟩)⟩
        · have hy : snc.position < 0 := lt_of_le_of_lt h2 h1
          unfold execPending
          rw [hp, hp2]
          dsimp only
          rw [if_neg (ne_of_lt h1), if_neg (ne_of_lt hy)]
          exact ⟨rfl, hlen, Or.inr (Or.inr ⟨h1, h2, hep, hPpos, hEc, hEnc⟩)⟩
    | shortEntry =>
        rcases hcase with ⟨h1, h2, hle, hst⟩ | ⟨h1, h2, hep, hPpos, hEc, hEnc⟩ |
          ⟨h1, h2, hep, hPpos, hEc, hEnc⟩
        · have hq : 0 < sc.equity * cfg.position_size_pct / 100 / fill := by positivity
          have hq2 : sc.equity * cfg.position_size_pct / 100 / fill
              ≤ snc.equity * cfg.position_size_pct / 100 / fill := by gcongr
          unfold execPending
          rw [hp, hp2]
          dsimp only
          rw [if_pos h1, if_pos h2, noCommission_size, noCommission_comm]
          refine ⟨rfl, hlen, Or.inr (Or.inr ⟨neg_lt_zero.mpr hq, neg_le_neg hq2, rfl,
            hfill, ?_, ?_⟩)⟩
          · show sc.equity - sc.equity * cfg.position_size_pct / 100 / fill * fill *
                cfg.commission_pct / 100
              = -(-(sc.equity * cfg.position_size_pct / 100 / fill)) * fill *
                (100 / cfg.position_size_pct - cfg.commission_pct / 100)
            rw [neg_neg]
            field_simp
            ring
          · show snc.equity - snc.equity * cfg.position_size_pct / 100 / fill * fill * 0 / 100
              = 100 * -(-(snc.equity * cfg.position_size_pct / 100 / fill)) * fill /
                cfg.position_size_pct
            rw [neg_neg]
            field_simp
            ring
        · have hy : 0 < snc.position := lt_of_lt_of_le h1 h2
          unfold execPending
          rw [hp, hp2]
          dsimp only
          rw [if_neg (ne_of_gt h1), if_neg (ne_of_gt hy)]
          exact ⟨rfl, hlen, Or.inr (Or.inl ⟨h1, h2, hep, hPpos, hEc, hEnc⟩)⟩
        · have hy : snc.position < 0 := lt_of_le_of_lt h2 h1
          unfold execPending
          rw [hp, hp2]
          dsimp only
          rw [if_neg (ne_of_lt h1), if_neg (ne_of_lt hy)]
          exact ⟨rfl, hlen, Or.inr (Or.inr ⟨h1, h2, hep, hPpos, hEc, hEnc⟩)⟩
    | longExit =>
        rcases hcase with ⟨h1, h2, hle, hst⟩ | ⟨h1, h2, hep, hPpos, hEc, hEnc⟩ |
          ⟨h1, h2, hep, hPpos, hEc, hEnc⟩
        · have hn1 : ¬ (0:ℚ) < sc.position := by rw [h1]; exact lt_irrefl 0
          have hn2 : ¬ (0:ℚ) < snc.position := by rw [h2]; exact lt_irrefl 0
          unfold execPending
          rw [hp, hp2]
          dsimp only
          rw [if_neg hn1, if_neg hn2]
          exact ⟨rfl, hlen, Or.inl ⟨h1, h2, hle, hst⟩⟩
        · have hy : 0 < snc.position := lt_of_lt_of_le h1 h2
          have hexc : execPending cfg sc fill t =
              { sc with
                  equity := sc.equity + pyAbs sc.position * (fill - sc.entry_price)
                            - pyAbs sc.position * fill * cfg.commission_pct / 100
                  position := 0
                  pending := none
                  trades := sc.trades ++ [{
                    direction := TradeDir.long
                    entry_time := sc.entry_time
                    entry_price := sc.entry_price
                    exit_time := t
                    exit_price := fill
                    qty := pyAbs sc.position
                    pnl := pyAbs sc.position * (fill - sc.entry_price)
                    commission := pyAbs sc.position * fill * cfg.commission_pct / 100 }] } := by
            unfold execPending
            rw [hp]
            dsimp only
            rw [if_pos h1]
          have hexn : execPending (noCommission cfg) snc fill t =
              { snc with
                  equity := snc.equity + pyAbs snc.position * (fill - snc.entry_price)
                            - pyAbs snc.position * fill * (noCommission cfg).commission_pct / 100
                  position := 0
                  pending := none
                  trades := snc.trades ++ [{
                    direction := TradeDir.long
                    entry_time := snc.entry_time
                    entry_price := snc.entry_price
                    exit_time := t
                    exit_price := fill
                    qty := pyAbs snc.position
                    pnl := pyAbs snc.position * (fill - snc.entry_price)
                    commission := pyAbs snc.position * fill *
                      (noCommission cfg).commission_pct / 100 }] } := by
            unfold execPending
            rw [hp2]
            dsimp only
            rw [if_pos hy]
          have hpost2 : 0 < sc.equity + pyAbs sc.position * (fill - sc.entry_price)
              - pyAbs sc.position * fill * cfg.commission_pct / 100 := by
            rw [hexc] at hpost
            exact hpost
          rw [pyAbs_of_pos h1, hEc] at hpost2
          rw [← hep] at hEnc
          have hlt : sc.equity + pyAbs sc.position * (fill - sc.entry_price)
                - pyAbs sc.position * fill * cfg.commission_pct / 100
              < snc.equity + pyAbs snc.position * (fill - snc.entry_price)
                - pyAbs snc.position * fill * (noCommission cfg).commission_pct / 100 := by
            rw [pyAbs_of_pos h1, pyAbs_of_pos hy, noCommission_comm, ← hep, hEc, hEnc]
            simp only [mul_zero, zero_div, sub_zero]
            exact exit_step_lt cfg.position_size_pct cfg.commission_pct sc.entry_price fill
              sc.position snc.position (fill - sc.entry_price) hs hc hPpos hfill.le h1 h2 hpost2
          rw [hexc, hexn]
          refine ⟨rfl, ?_, Or.inl ⟨rfl, rfl, hlt.le, fun _ => hlt⟩⟩
          show (sc.trades ++ _).length = (snc.trades ++ _).length
          rw [List.length_append, List.length_append, hlen]
          rfl
        · have hy : snc.position < 0 := lt_of_le_of_lt h2 h1
          unfold execPending
          rw [hp, hp2]
          dsimp only
          rw [if_neg (asymm h1), if_neg (asymm hy)]
          exact ⟨rfl, hlen, Or.inr (Or.inr ⟨h1, h2, hep, hPpos, hEc, hEnc⟩)⟩
    | shortExit =>
        rcases hcase with ⟨h1, h2, hle, hst⟩ | ⟨h1, h2, hep, hPpos, hEc, hEnc⟩ |
          ⟨h1, h2, hep, hPpos, hEc, hEnc⟩
        · have hn1 : ¬ sc.position < 0 := by rw [h1]; exact lt_irrefl 0
          have hn2 : ¬ snc.position < 0 := by rw [h2]; exact lt_irrefl 0
          unfold execPending
          rw [hp, hp2]
          dsimp only
          rw [if_neg hn1, if_neg hn2]
          exact ⟨rfl, hlen, Or.inl ⟨h1, h2, hle, hst⟩⟩
        · have hy : 0 < snc.position := lt_of_lt_of_le h1 h2
          unfold execPending
          rw [hp, hp2]
          dsimp only
          rw [if_neg (asymm h1), if_neg (asymm hy)]
          exact ⟨rfl, hlen, Or.inr (Or.inl ⟨h1, h2, hep, hPpos, hEc, hEnc⟩)⟩
        · have hy : snc.position < 0 := lt_of_le_of_lt h2 h1
          have hexc : execPending cfg sc fill t =
              { sc with
                  equity := sc.equity + pyAbs sc.position * (sc.entry_price - fill)
                            - pyAbs sc.position * fill * cfg.commission_pct / 100
                  position := 0
                  pending := none
                  trades := sc.trades ++ [{
                    direction := TradeDir.short
                    entry_time := sc.entry_time
                    entry_price := sc.entry_price
                    exit_time := t
                    exit_price := fill
                    qty := pyAbs sc.position
                    pnl := pyAbs sc.position * (sc.entry_price - fill)
                    commission := pyAbs sc.position * fill * cfg.commission_pct / 100 }] } := by
            unfold execPending
            rw [hp]
            dsimp only
            rw [if_pos h1]
          have hexn : execPending (noCommission cfg) snc fill t =
              { snc with
                  equity := snc.equity + pyAbs snc.position * (snc.entry_price - fill)
                            - pyAbs snc.position * fill * (noCommission cfg).commission_pct / 100
                  position := 0
                  pending := none
                  trades := snc.trades ++ [{
                    direction := TradeDir.short
                    entry_time := snc.entry_time
                    entry_price := snc.entry_price
                    exit_time := t
                    exit_price := fill
                    qty := pyAbs snc.position
                    pnl := pyAbs snc.position * (snc.entry_price - fill)
                    commission := pyAbs snc.position * fill *
                      (noCommission cfg).commission_pct / 100 }] } := by
            unfold execPending
            rw [hp2]
            dsimp only
            rw [if_pos hy]
          have hpost2 : 0 < sc.equity + pyAbs sc.position * (sc.entry_price - fill)
              - pyAbs sc.position * fill * cfg.commission_pct / 100 := by
            rw [hexc] at hpost
            exact hpost
          rw [pyAbs_of_neg h1, hEc] at hpost2
          rw [← hep] at hEnc
          have hlt : sc.equity + pyAbs sc.position * (sc.entry_price - fill)
                - pyAbs sc.position * fill * cfg.commission_pct / 100
              < snc.equity + pyAbs snc.position * (snc.entry_price - fill)
                - pyAbs snc.position * fill * (noCommission cfg).commission_pct / 100 := by
            rw [pyAbs_of_neg h1, pyAbs_of_neg hy, noCommission_comm, ← hep, hEc, hEnc]
            simp only [mul_zero, zero_div, sub_zero]
            exact exit_step_lt cfg.position_size_pct cfg.commission_pct sc.entry_price fill
              (-sc.position) (-snc.position) (sc.entry_price - fill) hs hc hPpos hfill.le
              (neg_pos.mpr h1) (neg_le_neg h2) hpost2
          rw [hexc, hexn]
          refine ⟨rfl, ?_, Or.inl ⟨rfl, rfl, hlt.le, fun _ => hlt⟩⟩
          show (sc.trades ++ _).length = (snc.trades ++ _).length
          rw [List.length_append, List.length_append, hlen]
          rfl

theorem step_commRel (cfg : EngineConfig) (b : Bar) (sc snc : EngState)
    (hs : 0 < cfg.position_size_pct) (hc : 0 < cfg.commission_pct)
    (hop : 0 < b.op)
    (hpre : 0 < sc.equity) (hpost : 0 < (step cfg sc b).equity)
    (hrel : CommRel cfg sc snc) :
    CommRel cfg (step cfg sc b) (step (noCommission cfg) snc b) :=
  commRel_mark_record cfg b b.cl _ _
    (exec_commRel cfg b.op b.t sc snc hs hc hop hpre hpost hrel)

theorem self_mem_runStates (cfg : EngineConfig) (s : EngState) (bs : List Bar) :
    s ∈ runStates cfg s bs := by
  cases bs <;> (unfold runStates; exact List.mem_cons_self _ _)

theorem loop_commRel (cfg : EngineConfig)
    (hs : 0 < cfg.position_size_pct) (hc : 0 < cfg.commission_pct) :
    ∀ (bars : List Bar) (sc snc : EngState),
    (∀ b ∈ bars, 0 < b.op ∧ 0 ≤ b.cl) →
    (∀ x ∈ runStates cfg sc bars, 0 < x.equity) →
    CommRel cfg sc snc →
    CommRel cfg (List.foldl (step cfg) sc bars)
      (List.foldl (step (noCommission cfg)) snc bars) := by
  intro bars
  induction bars with
  | nil => intro sc snc _ _ h; exact h
  | cons b bs ih =>
      intro sc snc hb hpos h
      have hb1 := hb b (List.mem_cons_self b bs)
      have hpre : 0 < sc.equity := by
        apply hpos
        unfold runStates
        exact List.mem_cons_self _ _
      have hpost : 0 < (step cfg sc b).equity := by
        apply hpos
        unfold runStates
        exact List.mem_cons_of_mem _ (self_mem_runStates cfg (step cfg sc b) bs)
      exact ih (step cfg sc b) (step (noCommission cfg) snc b)
        (fun x hx => hb x (List.mem_cons_of_mem _ hx))
        (fun x hx => hpos x (by unfold runStates; exact List.mem_cons_of_mem _ hx))
        (step_commRel cfg b sc snc hs hc hb1.1 hpre hpost h)

/-- C9 amended. Commission strictly reduces the final equity on any series
with at least one trade, provided the degenerate regimes exhibited by the
counterexample are excluded: all bar opens are positive, all closes are
nonnegative, the position-size and commission percentages are positive, and
the realized equity of the commission run stays strictly positive at every
step (after every bar and after the forced close).  Under those conditions
the commission-free run on the identical series ends with strictly larger
final equity. -/
theorem commission_reduces_final_equity (cfg : EngineConfig) (bars : List Bar)
    (hb : ∀ b ∈ bars, 0 < b.op ∧ 0 ≤ b.cl)
    (hs : 0 < cfg.position_size_pct) (hc : 0 < cfg.commission_pct)
    (hpos : ∀ x ∈ runStates cfg (initState cfg) bars, 0 < x.equity)
    (hfin : 0 < (run cfg bars).final_equity)
    (ht : (run cfg bars).trades ≠ []) :
    (run cfg bars).final_equity < (run (noCommission cfg) bars).final_equity := by
  have hinit : CommRel cfg (initState cfg) (initState (noCommission cfg)) :=
    ⟨rfl, rfl, Or.inl ⟨rfl, rfl, le_refl _, fun h => absurd rfl h⟩⟩
  have hrel : CommRel cfg (loopState cfg bars) (loopState (noCommission cfg) bars) :=
    loop_commRel cfg hs hc bars (initState cfg) (initState (noCommission cfg)) hb hpos hinit
  obtain ⟨hpend, hlen, hcase⟩ := hrel
  rcases hlb : bars.getLast? with _ | lb
  · exfalso
    have hnil : bars = [] := List.getLast?_eq_none_iff.mp hlb
    subst hnil
    exact ht rfl
  · have hlbmem : lb ∈ bars := List.mem_of_mem_getLast? (by rw [hlb]; rfl)
    have hcl : (0:ℚ) ≤ lb.cl := (hb lb hlbmem).2
    have hrunc : (run cfg bars).final_equity
        = (forceClose cfg (loopState cfg bars) lb).equity := by
      unfold run
      rw [hlb]
    have hrunn : (run (noCommission cfg) bars).final_equity
        = (forceClose (noCommission cfg) (loopState (noCommission cfg) bars) lb).equity := by
      unfold run
      rw [hlb]
    have htc : (run cfg bars).trades = (forceClose cfg (loopState cfg bars) lb).trades := by
      unfold run
      rw [hlb]
    rw [hrunc, hrunn]
    rw [hrunc] at hfin
    rcases hcase with ⟨h1, h2, hle, hst⟩ | ⟨h1, h2, hep, hPpos, hEc, hEnc⟩ |
      ⟨h1, h2, hep, hPpos, hEc, hEnc⟩
    · have hfc1 : forceClose cfg (loopState cfg bars) lb = loopState cfg bars := by
        unfold forceClose
        rw [if_pos h1]
      have hfc2 : forceClose (noCommission cfg) (loopState (noCommission cfg) bars) lb
          = loopState (noCommission cfg) bars := by
        unfold forceClose
        rw [if_pos h2]
      rw [hfc1, hfc2]
      apply hst
      rw [htc, hfc1] at ht
      exact ht
    · have hy : 0 < (loopState (noCommission cfg) bars).position := lt_of_lt_of_le h1 h2
      have heqc : (forceClose cfg (loopState cfg bars) lb).equity
          = (loopState cfg bars).equity
            + pyAbs (loopState cfg bars).position * (lb.cl - (loopState cfg bars).entry_price)
            - pyAbs (loopState cfg bars).position * lb.cl * cfg.commission_pct / 100 := by
        unfold forceClose
        rw [if_neg (ne_of_gt h1)]
        dsimp only
        rw [if_pos h1]
      have heqn : (forceClose (noCommission cfg) (loopState (noCommission cfg) bars) lb).equity
          = (loopState (noCommission cfg) bars).equity
            + pyAbs (loopState (noCommission cfg) bars).position
              * (lb.cl - (loopState (noCommission cfg) bars).entry_price)
            - pyAbs (loopState (noCommission cfg) bars).position * lb.cl
              * (noCommission cfg).commission_pct / 100 := by
        unfold forceClose
        rw [if_neg (ne_of_gt hy)]
        dsimp only
        rw [if_pos hy]
      rw [heqc, heqn]
      rw [heqc] at hfin
      rw [pyAbs_of_pos h1, hEc] at hfin
      rw [← hep] at hEnc
      rw [pyAbs_of_pos h1, pyAbs_of_pos hy, noCommission_comm, ← hep, hEc, hEnc]
      simp only [mul_zero, zero_div, sub_zero]
      exact exit_step_lt cfg.position_size_pct cfg.commission_pct
        (loopState cfg bars).entry_price lb.cl (loopState cfg bars).position
        (loopState (noCommission cfg) bars).position
        (lb.cl - (loopState cfg bars).entry_price) hs hc hPpos hcl h1 h2 hfin
    · have hy : (loopState (noCommission cfg) bars).position < 0 := lt_of_le_of_lt h2 h1
      have heqc : (forceClose cfg (loopState cfg bars) lb).equity
          = (loopState cfg bars).equity
            + pyAbs (loopState cfg bars).position * ((loopState cfg bars).entry_price - lb.cl)
            - pyAbs (loopState cfg bars).position * lb.cl * cfg.commission_pct / 100 := by
        unfold forceClose
        rw [if_neg (ne_of_lt h1)]
        dsimp only
        rw [if_neg (asymm h1)]
      have heqn : (forceClose (noCommission cfg) (loopState (noCommission cfg) bars) lb).equity
          = (loopState (noCommission cfg) bars).equity
            + pyAbs (loopState (noCommission cfg) bars).position
              * ((loopState (noCommission cfg) bars).entry_price - lb.cl)
            - pyAbs (loopState (noCommission cfg) bars).position * lb.cl
              * (noCommission cfg).commission_pct / 100 := by
        unfold forceClose
        rw [if_neg (ne_of_lt hy)]
        dsimp only
        rw [if_neg (asymm hy)]
      rw [heqc, heqn]
      rw [heqc] at hfin
      rw [pyAbs_of_neg h1, hEc] at hfin
      rw [← hep] at hEnc
      rw [pyAbs_of_neg h1, pyAbs_of_neg hy, noCommission_comm, ← hep, hEc, hEnc]
      simp only [mul_zero, zero_div, sub_zero]
      exact exit_step_lt cfg.position_size_pct cfg.commission_pct
        (loopState cfg bars).entry_price lb.cl (-(loopState cfg bars).position)
        (-(loopState (noCommission cfg) bars).position)
        ((loopState cfg bars).entry_price - lb.cl) hs hc hPpos hcl
        (neg_pos.mpr h1) (neg_le_neg h2) hfin

theorem commission_reduces_final_equity_witness :
    (run cfgWin barsWin).final_equity < (run (noCommission cfgWin) barsWin).final_equity :=
  commission_reduces_final_equity cfgWin barsWin
    (by intro b hbm; fin_cases hbm <;> norm_num [mkBar])
    (by norm_num [cfgWin])
    (by norm_num [cfgWin])
    (by
      intro x hx
      simp only [runStates, step, execPending, markEquity, recordSignal, initState,
        mtm, pyAbs, barsWin, cfgWin, mkBar] at hx
      norm_num at hx
      rcases hx with rfl | rfl | rfl | rfl <;> norm_num)
    (by norm_num [run, loopState, step, execPending, markEquity, recordSignal, initState,
        forceClose, mtm, pyAbs, barsWin, cfgWin, mkBar])
    (by norm_num [run, loopState, step, execPending, markEquity, recordSignal, initState,
        forceClose, mtm, pyAbs, barsWin, cfgWin, mkBar])
